import Mathlib

/-
Verification of the Atlas agent runtime (crates/atlas-core, crates/atlas-agent).

The development shallowly embeds the Rust source:
  - serde_json::Value          -> Json
  - HashMap<K, V>              -> association lists with replace-on-insert
    (mapInsert / mapLookup / mapRemove), the semantics of a hash map whose
    keys are unique by construction
  - atlas_core::Metadata       -> Metadata (List (String × Json))
  - atlas_agent::error::Error  -> Err, with anyhow wrapping modelled by AnyErr
  - atlas_mcp::MCPTool         -> MCPTool; the observable side effects of an
    execution are returned as an explicit event log (List String)
  - atlas_agent::tool          -> ToolConfig, ToolContext, ToolManager,
    ToolMiddleware, ToolPipeline, createNext
  - atlas_agent (lib.rs)       -> TaskStatus, TaskState, State, Agent,
    Agent.execute_with_tools, Agent.execute_task
  - atlas_agent::state         -> MemoryEntry, add_memory, get_task,
    update_task, remove_task
UUID values are modelled as natural numbers; freshness of generated ids is
expressed as a distinctness hypothesis where a claim needs it.
-/

namespace Atlas

/-- serde_json::Value. Numbers are modelled as integers; none of the verified
properties depends on numeric contents. -/
inductive Json where
  | null
  | bool (b : Bool)
  | num (n : Int)
  | str (s : String)
  | arr (elems : List Json)
  | obj (fields : List (String × Json))

/-- Deserializing a serde_json::Value into a String succeeds exactly on JSON
strings (serde_json does not coerce other variants). -/
def Json.asString : Json → Option String
  | .str s => some s
  | _ => none

section AssocMap

variable {κ : Type} [DecidableEq κ] {α : Type}

/-- HashMap::insert: replace the binding of the key if present, else append. -/
def mapInsert (k : κ) (v : α) : List (κ × α) → List (κ × α)
  | [] => [(k, v)]
  | (k₀, v₀) :: rest =>
      if k₀ = k then (k, v) :: rest else (k₀, v₀) :: mapInsert k v rest

/-- HashMap::get. -/
def mapLookup (k : κ) : List (κ × α) → Option α
  | [] => none
  | (k₀, v₀) :: rest => if k₀ = k then some v₀ else mapLookup k rest

/-- HashMap::remove. -/
def mapRemove (k : κ) : List (κ × α) → List (κ × α)
  | [] => []
  | (k₀, v₀) :: rest =>
      if k₀ = k then rest else (k₀, v₀) :: mapRemove k rest

theorem mapLookup_mapInsert_self (k : κ) (v : α) (l : List (κ × α)) :
    mapLookup k (mapInsert k v l) = some v := by
  induction l with
  | nil => simp [mapInsert, mapLookup]
  | cons hd tl ih =>
      obtain ⟨k₀, v₀⟩ := hd
      by_cases h : k₀ = k
      · simp [mapInsert, mapLookup, h]
      · simp [mapInsert, mapLookup, h, ih]

theorem mapLookup_mapInsert_ne {j k : κ} (h : j ≠ k) (v : α) (l : List (κ × α)) :
    mapLookup j (mapInsert k v l) = mapLookup j l := by
  have h' : k ≠ j := Ne.symm h
  induction l with
  | nil => simp [mapInsert, mapLookup, h']
  | cons hd tl ih =>
      obtain ⟨k₀, v₀⟩ := hd
      by_cases hk : k₀ = k
      · simp [mapInsert, mapLookup, hk, h']
      · by_cases hj : k₀ = j
        · simp [mapInsert, mapLookup, hk, hj, h]
        · simp [mapInsert, mapLookup, hk, hj, ih]

theorem mapLookup_eq_none_of_not_mem {k : κ} {l : List (κ × α)}
    (h : k ∉ l.map Prod.fst) : mapLookup k l = none := by
  induction l with
  | nil => rfl
  | cons hd tl ih =>
      obtain ⟨k₀, v₀⟩ := hd
      simp only [List.map_cons, List.mem_cons] at h
      push_neg at h
      simp [mapLookup, Ne.symm h.1, ih h.2]

theorem mem_keys_mapInsert {a k : κ} {v : α} {l : List (κ × α)} :
    a ∈ (mapInsert k v l).map Prod.fst ↔ a = k ∨ a ∈ l.map Prod.fst := by
  induction l with
  | nil => simp [mapInsert]
  | cons hd tl ih =>
      obtain ⟨k₀, v₀⟩ := hd
      by_cases h : k₀ = k
      · subst h
        simp [mapInsert]
      · simp only [mapInsert, if_neg h, List.map_cons, List.mem_cons, ih]
        tauto

theorem nodup_keys_mapInsert {k : κ} {v : α} {l : List (κ × α)}
    (h : (l.map Prod.fst).Nodup) : ((mapInsert k v l).map Prod.fst).Nodup := by
  induction l with
  | nil => simp [mapInsert]
  | cons hd tl ih =>
      obtain ⟨k₀, v₀⟩ := hd
      simp only [List.map_cons, List.nodup_cons] at h
      by_cases hk : k₀ = k
      · subst hk
        simpa [mapInsert] using h
      · have hrw : mapInsert k v ((k₀, v₀) :: tl) = (k₀, v₀) :: mapInsert k v tl := by
          simp [mapInsert, hk]
        rw [hrw, List.map_cons, List.nodup_cons]
        refine ⟨?_, ih h.2⟩
        intro hmem
        rcases mem_keys_mapInsert.1 hmem with rfl | hmem
        · exact hk rfl
        · exact h.1 hmem

theorem mapRemove_sublist (k : κ) (l : List (κ × α)) : (mapRemove k l).Sublist l := by
  induction l with
  | nil => simp [mapRemove]
  | cons hd tl ih =>
      obtain ⟨k₀, v₀⟩ := hd
      by_cases h : k₀ = k
      · simp only [mapRemove, if_pos h]
        exact List.sublist_cons_self (k₀, v₀) tl
      · simp only [mapRemove, if_neg h]
        exact ih.cons₂ (k₀, v₀)

theorem nodup_keys_mapRemove {k : κ} {l : List (κ × α)}
    (h : (l.map Prod.fst).Nodup) : ((mapRemove k l).map Prod.fst).Nodup :=
  (((mapRemove_sublist k l).map Prod.fst).nodup h)

theorem mapLookup_mapRemove_self {k : κ} {l : List (κ × α)}
    (h : (l.map Prod.fst).Nodup) : mapLookup k (mapRemove k l) = none := by
  induction l with
  | nil => rfl
  | cons hd tl ih =>
      obtain ⟨k₀, v₀⟩ := hd
      simp only [List.map_cons, List.nodup_cons] at h
      by_cases hk : k₀ = k
      · subst hk
        simp only [mapRemove, if_pos rfl]
        exact mapLookup_eq_none_of_not_mem h.1
      · simp [mapRemove, mapLookup, hk, ih h.2]

theorem mapLookup_mapRemove_ne {j k : κ} (h : j ≠ k) (l : List (κ × α)) :
    mapLookup j (mapRemove k l) = mapLookup j l := by
  have h' : k ≠ j := Ne.symm h
  induction l with
  | nil => rfl
  | cons hd tl ih =>
      obtain ⟨k₀, v₀⟩ := hd
      by_cases hk : k₀ = k
      · simp [mapRemove, mapLookup, hk, h']
      · by_cases hj : k₀ = j
        · simp [mapRemove, mapLookup, hk, hj, h]
        · simp [mapRemove, mapLookup, hk, hj, ih]

end AssocMap

/-- atlas_core::Metadata: a HashMap<String, serde_json::Value>. -/
def Metadata : Type := List (String × Json)

/-- Metadata::get::<String>: look the key up and try to deserialize the value
as a String (serde failures are discarded by .ok()). -/
def Metadata.getString (m : Metadata) (k : String) : Option String :=
  (mapLookup k m).bind Json.asString

/-- atlas_agent::error::Error (the string-carrying variants; the transparent
wrappers for foreign errors are not needed by any verified claim). -/
inductive Err where
  | invalidConfig (msg : String)
  | invalidRequest (msg : String)
  | toolNotFound (name : String)
  | toolExecutionFailed (msg : String)
  | stateError (msg : String)
  | taskError (msg : String)
  | memoryError (msg : String)
deriving DecidableEq, Repr

/-- An anyhow::Error in the agent call paths: either one of the agent error
variants or an arbitrary external error carrying its display text. -/
inductive AnyErr where
  | agent (e : Err)
  | other (msg : String)
deriving DecidableEq, Repr

/-- The thiserror display strings from error.rs. -/
def Err.toStr : Err → String
  | .invalidConfig msg => "Invalid configuration: " ++ msg
  | .invalidRequest msg => "Invalid request: " ++ msg
  | .toolNotFound name => "Tool not found: " ++ name
  | .toolExecutionFailed msg => "Tool execution failed: " ++ msg
  | .stateError msg => "State error: " ++ msg
  | .taskError msg => "Task error: " ++ msg
  | .memoryError msg => "Memory error: " ++ msg

/-- anyhow::Error::to_string. -/
def AnyErr.toStr : AnyErr → String
  | .agent e => e.toStr
  | .other msg => msg

/-- Did an Except-valued call return Ok. -/
def resultOk {ε α : Type} : Except ε α → Bool
  | .ok _ => true
  | .error _ => false

/-- The result of one tool or middleware invocation: the ordered log of
externally observable side effects (tagged by strings) produced during the
call, together with the returned value. -/
abbrev MWResult : Type := List String × Except AnyErr Metadata

/-- atlas_mcp::MCPTool (trait object): name, description, and an execute body
supplied by the caller. The body returns its observable event log alongside
its Result<Metadata>. -/
structure MCPTool where
  name : String
  description : String
  execute : Metadata → MWResult

/-- tool.rs ToolConfig (the ToolDescriptor of the spec). -/
structure ToolConfig where
  name : String
  description : String
  config : Metadata
  input_schema : Option Json

/-- tool.rs ToolContext. -/
structure ToolContext where
  config : ToolConfig
  params : Metadata

/-- ToolContext::validate: schema validation is unimplemented in the source
(TODO comment); every branch returns Ok(()). -/
def ToolContext.validate (_ctx : ToolContext) : Except AnyErr Unit := .ok ()

/-- tool.rs ToolManager: the tools map and the configs map. -/
structure ToolManager where
  tools : List (String × MCPTool)
  configs : List (String × ToolConfig)

/-- ToolManager::new. -/
def ToolManager.new : ToolManager := ⟨[], []⟩

/-- ToolManager::register: derive the default config and insert into both
maps, overwriting any previous binding of the name. -/
def ToolManager.register (tm : ToolManager) (name : String) (tool : MCPTool) :
    ToolManager :=
  let config : ToolConfig :=
    { name := name, description := tool.description, config := [], input_schema := none }
  { tools := mapInsert name tool tm.tools,
    configs := mapInsert name config tm.configs }

/-- ToolManager::get. -/
def ToolManager.get (tm : ToolManager) (name : String) : Option MCPTool :=
  mapLookup name tm.tools

/-- ToolManager::get_config. -/
def ToolManager.get_config (tm : ToolManager) (name : String) : Option ToolConfig :=
  mapLookup name tm.configs

/-- ToolManager::update_config: error if the name is absent from the tools
map, otherwise insert the given config. Returned as (new state, result). -/
def ToolManager.update_config (tm : ToolManager) (name : String)
    (config : ToolConfig) : ToolManager × Except AnyErr Unit :=
  if (mapLookup name tm.tools).isSome then
    ({ tm with configs := mapInsert name config tm.configs }, .ok ())
  else
    (tm, .error (.agent (.toolNotFound name)))

/-- ToolManager::list_tools: the values of the configs map. -/
def ToolManager.list_tools (tm : ToolManager) : List ToolConfig :=
  tm.configs.map Prod.snd

/-- ToolManager::create_context: resolve the config, build the context,
validate it. -/
def ToolManager.create_context (tm : ToolManager) (name : String)
    (params : Metadata) : Except AnyErr ToolContext :=
  match tm.get_config name with
  | none => .error (.agent (.toolNotFound name))
  | some config =>
      let context : ToolContext := ⟨config, params⟩
      match context.validate with
      | .error e => .error e
      | .ok _ => .ok context

/-- tool.rs ToolMiddleware (trait object): process receives the context and
the next continuation. -/
structure ToolMiddleware where
  process : ToolContext → (ToolContext → MWResult) → MWResult

/-- tool.rs ToolPipeline. -/
structure ToolPipeline where
  manager : ToolManager
  middleware : List ToolMiddleware

/-- The create_next helper inside ToolPipeline::execute: an empty chain calls
tool.execute(ctx.params), otherwise the head middleware is given the
continuation built from the rest of the chain. -/
def createNext : List ToolMiddleware → MCPTool → ToolContext → MWResult
  | [], tool, ctx => tool.execute ctx.params
  | m :: rest, tool, ctx => m.process ctx (createNext rest tool)

/-- ToolPipeline::execute: create the context, resolve the tool, then run the
continuation chain. A failure before the chain is built produces an empty
event log. -/
def ToolPipeline.execute (p : ToolPipeline) (name : String) (params : Metadata) :
    MWResult :=
  match p.manager.create_context name params with
  | .error e => ([], .error e)
  | .ok context =>
      match p.manager.get name with
      | none => ([], .error (.agent (.toolNotFound name)))
      | some tool => createNext p.middleware tool context

/-- lib.rs TaskStatus. -/
inductive TaskStatus where
  | pending
  | running
  | completed
  | failed
deriving DecidableEq, Repr

/-- lib.rs TaskState. -/
structure TaskState where
  id : Nat
  status : TaskStatus
  result : Option Metadata
  error : Option String

/-- lib.rs State: the agent memory map and the task map. -/
structure State where
  memory : List (String × Json)
  tasks : List (Nat × TaskState)

/-- State::default (both maps empty). -/
def State.empty : State := ⟨[], []⟩

/-- AgentState::update for State: insert every key of data into the memory
map, overwriting existing keys; always returns Ok(()). -/
def State.update (st : State) (data : Metadata) : State × Except AnyErr Unit :=
  ({ st with memory := data.foldl (fun m kv => mapInsert kv.1 kv.2 m) st.memory },
   .ok ())

/-- AgentState::snapshot for State: a copy of the memory map. -/
def State.snapshot (st : State) : Except AnyErr Metadata := .ok st.memory

/-- lib.rs Config. -/
structure Config where
  name : String
  description : Option String
  capabilities : List String
  config : Metadata

/-- lib.rs Agent. Its locked State is passed explicitly to the operations. -/
structure Agent where
  config : Config
  tools : ToolManager

/-- Agent::execute_with_tools: read the tool name from params (a String
deserialization), resolve the tool, execute it. The event log of the tool
body is an external side effect and is not part of the returned value here. -/
def Agent.execute_with_tools (ag : Agent) (params : Metadata) :
    Except AnyErr Metadata :=
  match Metadata.getString params "tool" with
  | none => .error (.agent (.invalidRequest "Tool name is required"))
  | some tool_name =>
      match ag.tools.get tool_name with
      | none => .error (.agent (.toolNotFound tool_name))
      | some tool => (tool.execute params).2

/-- Agent::execute_task: insert a Running record, run execute_with_tools,
then mutate the record to Completed with the result or to Failed with the
stringified error, and return the outcome. -/
def Agent.execute_task (ag : Agent) (st : State) (task_id : Nat)
    (params : Metadata) : State × Except AnyErr Metadata :=
  let st1 : State :=
    { st with tasks := mapInsert task_id ⟨task_id, .running, none, none⟩ st.tasks }
  match ag.execute_with_tools params with
  | .ok result =>
      ({ st1 with
          tasks := mapInsert task_id ⟨task_id, .completed, some result, none⟩ st1.tasks },
       .ok result)
  | .error e =>
      ({ st1 with
          tasks := mapInsert task_id ⟨task_id, .failed, none, some e.toStr⟩ st1.tasks },
       .error e)

/-- AgentStateManager::get_task. -/
def get_task (st : State) (id : Nat) : Option TaskState :=
  mapLookup id st.tasks

/-- AgentStateManager::update_task: full replace keyed by the id of the given
record, no validation. -/
def update_task (st : State) (task : TaskState) : State :=
  { st with tasks := mapInsert task.id task st.tasks }

/-- AgentStateManager::remove_task. -/
def remove_task (st : State) (id : Nat) : State :=
  { st with tasks := mapRemove id st.tasks }

/-- state.rs MemoryEntry. The id and timestamp are generated at creation; the
embedding takes them as data, with uniqueness of generated ids stated as a
hypothesis where a property needs it. -/
structure MemoryEntry where
  id : Nat
  timestamp : Nat
  data : Json
  metadata : Metadata

/-- AgentStateManager::add_memory on the entry list, non-persistent path.
When the store is at or above capacity the source calls Vec::remove(0),
which panics on an empty vector; the panic is modelled as none. -/
def add_memory (capacity : Nat) (memory : List MemoryEntry)
    (entry : MemoryEntry) : Option (List MemoryEntry) :=
  if capacity ≤ memory.length then
    match memory with
    | [] => none
    | _ :: rest => some (rest ++ [entry])
  else
    some (memory ++ [entry])

/-- A sequence of add_memory calls, propagating a panic. -/
def add_all (capacity : Nat) : List MemoryEntry → List MemoryEntry →
    Option (List MemoryEntry)
  | memory, [] => some memory
  | memory, e :: es =>
      match add_memory capacity memory e with
      | none => none
      | some m2 => add_all capacity m2 es

/-- AgentStateManager::get_memory: first entry with the requested id. -/
def get_memory (memory : List MemoryEntry) (id : Nat) : Option MemoryEntry :=
  memory.find? (fun e => e.id == id)

/-- An operation on the runtime and state manager, as named by the spec:
execute_task, update_task, remove_task. -/
inductive AgentOp where
  | exec (task_id : Nat) (params : Metadata)
  | update (task : TaskState)
  | remove (task_id : Nat)

/-- Run one operation, listing every intermediate state it writes (an
execute_task call first inserts the Running record, then the terminal one),
together with the final state. -/
def opRun (ag : Agent) (st : State) : AgentOp → List State × State
  | .exec tid params =>
      let st1 : State :=
        { st with tasks := mapInsert tid ⟨tid, .running, none, none⟩ st.tasks }
      let stf := (ag.execute_task st tid params).1
      ([st1, stf], stf)
  | .update task => ([update_task st task], update_task st task)
  | .remove tid => ([remove_task st tid], remove_task st tid)

/-- All states written while running a sequence of operations, in order. -/
def runTrace (ag : Agent) : State → List AgentOp → List State
  | _, [] => []
  | st, op :: rest => (opRun ag st op).1 ++ runTrace ag (opRun ag st op).2 rest

/-- The status of the record with the given task id, if present. -/
def statusAt (id : Nat) (st : State) : Option TaskStatus :=
  (mapLookup id st.tasks).map TaskState.status

/-- The successive statuses of a task id over a run, starting state first. -/
def statusTrace (ag : Agent) (st : State) (ops : List AgentOp) (id : Nat) :
    List (Option TaskStatus) :=
  (st :: runTrace ag st ops).map (statusAt id)

/-- One step of status evolution allowed by the claimed lifecycle invariant:
stay put, appear, disappear (explicit removal), or move forward along
Pending to Running to Completed or Failed. -/
def stepOk : Option TaskStatus → Option TaskStatus → Bool
  | none, _ => true
  | some _, none => true
  | some .pending, some .pending => true
  | some .pending, some .running => true
  | some .running, some .running => true
  | some .running, some .completed => true
  | some .running, some .failed => true
  | some .completed, some .completed => true
  | some .failed, some .failed => true
  | _, _ => false

/-- Every adjacent pair of a status trace is an allowed step. -/
def chainOk : List (Option TaskStatus) → Bool
  | [] => true
  | [_] => true
  | a :: b :: rest => stepOk a b && chainOk (b :: rest)

/-- The task ids of the execute_task operations of a sequence. -/
def execIds : List AgentOp → List Nat
  | [] => []
  | .exec tid _ :: rest => tid :: execIds rest
  | _ :: rest => execIds rest

/-- Whether an operation is an update_task call. -/
def isUpdateOp : AgentOp → Bool
  | .update _ => true
  | _ => false

theorem execute_task_fst_tasks (ag : Agent) (st : State) (tid : Nat)
    (params : Metadata) :
    ∃ rec : TaskState, rec.id = tid ∧
      (rec.status = .completed ∨ rec.status = .failed) ∧
      (ag.execute_task st tid params).1 =
        { st with tasks :=
            mapInsert tid rec (mapInsert tid ⟨tid, .running, none, none⟩ st.tasks) } := by
  cases h : ag.execute_with_tools params with
  | ok result =>
      exact ⟨⟨tid, .completed, some result, none⟩, rfl, Or.inl rfl,
        by simp [Agent.execute_task, h]⟩
  | error e =>
      exact ⟨⟨tid, .failed, none, some e.toStr⟩, rfl, Or.inr rfl,
        by simp [Agent.execute_task, h]⟩

theorem statusAt_execute_task_self (ag : Agent) (st : State) (tid : Nat)
    (params : Metadata) :
    ∃ s : TaskStatus, (s = .completed ∨ s = .failed) ∧
      statusAt tid (ag.execute_task st tid params).1 = some s := by
  obtain ⟨rec, _, hs, hst⟩ := execute_task_fst_tasks ag st tid params
  refine ⟨rec.status, hs, ?_⟩
  rw [hst]
  simp [statusAt, mapLookup_mapInsert_self]

theorem statusAt_execute_task_ne (ag : Agent) (st : State) (tid : Nat)
    (params : Metadata) {id : Nat} (h : id ≠ tid) :
    statusAt id (ag.execute_task st tid params).1 = statusAt id st := by
  obtain ⟨rec, _, _, hst⟩ := execute_task_fst_tasks ag st tid params
  rw [hst]
  simp [statusAt, mapLookup_mapInsert_ne h]

theorem nodup_tasks_execute_task (ag : Agent) (st : State) (tid : Nat)
    (params : Metadata) (h : (st.tasks.map Prod.fst).Nodup) :
    ((ag.execute_task st tid params).1.tasks.map Prod.fst).Nodup := by
  obtain ⟨rec, _, _, hst⟩ := execute_task_fst_tasks ag st tid params
  rw [hst]
  exact nodup_keys_mapInsert (nodup_keys_mapInsert h)

theorem stepOk_refl (a : Option TaskStatus) : stepOk a a = true := by
  rcases a with _ | s
  · rfl
  · cases s <;> rfl

theorem stepOk_none_right (a : Option TaskStatus) : stepOk a none = true := by
  rcases a with _ | s
  · rfl
  · cases s <;> rfl

theorem chainOk_statusTrace_aux (ag : Agent) (id : Nat) :
    ∀ (ops : List AgentOp) (st : State),
      (st.tasks.map Prod.fst).Nodup →
      (∀ op ∈ ops, isUpdateOp op = false) →
      (execIds ops).Nodup →
      (id ∈ execIds ops → statusAt id st = none) →
      chainOk ((st :: runTrace ag st ops).map (statusAt id)) = true := by
  intro ops
  induction ops with
  | nil => intro st _ _ _ _; rfl
  | cons op rest ih =>
      intro st hnd hupd hids hstat
      have hupd' : ∀ o ∈ rest, isUpdateOp o = false :=
        fun o ho => hupd o (List.mem_cons_of_mem _ ho)
      cases op with
      | update t =>
          have h1 := hupd (.update t) (List.mem_cons_self _ _)
          simp [isUpdateOp] at h1
      | exec tid params =>
          have hcons : execIds (AgentOp.exec tid params :: rest) =
              tid :: execIds rest := rfl
          rw [hcons] at hids hstat
          have hids' : (execIds rest).Nodup := (List.nodup_cons.1 hids).2
          have htid : tid ∉ execIds rest := (List.nodup_cons.1 hids).1
          have hstf := statusAt_execute_task_self ag st tid params
          obtain ⟨s, hsterm, hsf⟩ := hstf
          simp only [runTrace, opRun, List.cons_append, List.nil_append,
            List.map_cons, chainOk, Bool.and_eq_true]
          by_cases hid : id = tid
          · subst hid
            have h0 : statusAt id st = none := hstat (List.mem_cons_self _ _)
            have h1 : statusAt id
                ({ st with tasks :=
                    mapInsert id ⟨id, .running, none, none⟩ st.tasks } : State) =
                some .running := by
              simp [statusAt, mapLookup_mapInsert_self]
            refine ⟨?_, ?_, ?_⟩
            · rw [h0]; rfl
            · rw [h1, hsf]
              rcases hsterm with rfl | rfl <;> rfl
            · have := ih ((ag.execute_task st id params).1)
                (nodup_tasks_execute_task ag st id params hnd) hupd' hids'
                (fun hmem => absurd hmem htid)
              simpa using this
          · have h1 : statusAt id
                ({ st with tasks :=
                    mapInsert tid ⟨tid, .running, none, none⟩ st.tasks } : State) =
                statusAt id st := by
              simp [statusAt, mapLookup_mapInsert_ne hid]
            have h2 : statusAt id (ag.execute_task st tid params).1 =
                statusAt id st := statusAt_execute_task_ne ag st tid params hid
            refine ⟨?_, ?_, ?_⟩
            · rw [h1]; exact stepOk_refl _
            · rw [h1, h2]; exact stepOk_refl _
            · have := ih ((ag.execute_task st tid params).1)
                (nodup_tasks_execute_task ag st tid params hnd) hupd' hids'
                (fun hmem => by
                  rw [h2]
                  exact hstat (List.mem_cons_of_mem _ hmem))
              simpa using this
      | remove tid =>
          have hcons : execIds (AgentOp.remove tid :: rest) = execIds rest := rfl
          rw [hcons] at hids hstat
          have hnd' : ((remove_task st tid).tasks.map Prod.fst).Nodup :=
            nodup_keys_mapRemove hnd
          simp only [runTrace, opRun, List.cons_append, List.nil_append,
            List.map_cons, chainOk, Bool.and_eq_true]
          by_cases hid : id = tid
          · subst hid
            have h1 : statusAt id (remove_task st id) = none := by
              simp [statusAt, remove_task, mapLookup_mapRemove_self hnd]
            refine ⟨?_, ?_⟩
            · rw [h1]; exact stepOk_none_right _
            · have := ih (remove_task st id) hnd' hupd' hids
                (fun _ => h1)
              simpa using this
          · have h1 : statusAt id (remove_task st tid) = statusAt id st := by
              simp [statusAt, remove_task, mapLookup_mapRemove_ne hid]
            refine ⟨?_, ?_⟩
            · rw [h1]; exact stepOk_refl _
            · have := ih (remove_task st tid) hnd' hupd' hids
                (fun hmem => by rw [h1]; exact hstat hmem)
              simpa using this

/-- Claim C2 (amended): over any operation sequence made of execute_task
calls with pairwise distinct task ids and remove_task calls, starting from
the default empty state, every task status only moves forward along
Pending to Running to Completed or Failed, and never leaves a terminal
status; update_task (an unvalidated full replace) and a repeated
execute_task on the same id are excluded, since either rewrites a terminal
record. -/
theorem task_status_forward (ag : Agent) (ops : List AgentOp) (id : Nat)
    (hupd : ∀ op ∈ ops, isUpdateOp op = false)
    (hids : (execIds ops).Nodup) :
    chainOk (statusTrace ag State.empty ops id) = true :=
  chainOk_statusTrace_aux ag id ops State.empty (by simp [State.empty]) hupd hids
    (fun _ => rfl)

/-- A tool whose body immediately succeeds with an empty result map. -/
def c2Tool : MCPTool := ⟨"t", "a test tool", fun _ => ([], .ok ([] : Metadata))⟩

/-- An agent with the single tool c2Tool registered under the name t. -/
def c2Agent : Agent :=
  ⟨⟨"agent", none, [], []⟩, ToolManager.new.register "t" c2Tool⟩

/-- Parameters selecting the tool named t. -/
def c2Params : Metadata := [("tool", Json.str "t")]

/-- Claim C2 counterexample: after execute_task completes task 0, an
update_task call with a Pending record moves the stored status from the
terminal Completed back to Pending, so the claimed invariant fails on this
concrete operation sequence. -/
theorem task_status_regression_cex :
    statusTrace c2Agent State.empty
        [.exec 0 c2Params, .update ⟨0, .pending, none, none⟩] 0 =
      [none, some .running, some .completed, some .pending] ∧
    chainOk (statusTrace c2Agent State.empty
        [.exec 0 c2Params, .update ⟨0, .pending, none, none⟩] 0) = false := by
  exact ⟨rfl, rfl⟩

/-- Witness for the amended C2 theorem on a concrete run. -/
theorem task_status_forward_witness :
    ((∀ op ∈ ([.exec 0 c2Params, .remove 0] : List AgentOp),
        isUpdateOp op = false) ∧
      (execIds [.exec 0 c2Params, .remove 0]).Nodup) ∧
    chainOk (statusTrace c2Agent State.empty [.exec 0 c2Params, .remove 0] 0) =
      true :=
  ⟨⟨by decide, by decide⟩,
    task_status_forward c2Agent [.exec 0 c2Params, .remove 0] 0
      (by decide) (by decide)⟩

/-- Claim C1: after any execute_task call returns, get_task on its task id
yields a record whose status is Completed iff the call returned success and
Failed iff it returned an error; the result field is set iff the status is
Completed and the error field is set iff the status is Failed. -/
theorem execute_task_lifecycle (ag : Agent) (st : State) (tid : Nat)
    (params : Metadata) :
    ∃ rec : TaskState,
      get_task (ag.execute_task st tid params).1 tid = some rec ∧
      (rec.status = .completed ↔ resultOk (ag.execute_task st tid params).2 = true) ∧
      (rec.status = .failed ↔ resultOk (ag.execute_task st tid params).2 = false) ∧
      (rec.result.isSome ↔ rec.status = .completed) ∧
      (rec.error.isSome ↔ rec.status = .failed) := by
  cases h : ag.execute_with_tools params with
  | ok result =>
      refine ⟨⟨tid, .completed, some result, none⟩, ?_, ?_, ?_, ?_, ?_⟩ <;>
        simp [Agent.execute_task, get_task, h, mapLookup_mapInsert_self, resultOk]
  | error e =>
      refine ⟨⟨tid, .failed, none, some e.toStr⟩, ?_, ?_, ?_, ?_, ?_⟩ <;>
        simp [Agent.execute_task, get_task, h, mapLookup_mapInsert_self, resultOk]

theorem add_all_cons (C : Nat) (mem : List MemoryEntry) (e : MemoryEntry)
    (es : List MemoryEntry) :
    add_all C mem (e :: es) =
      match add_memory C mem e with
      | none => none
      | some m2 => add_all C m2 es := rfl

theorem add_all_eq_drop (C : Nat) (hC : 1 ≤ C) :
    ∀ (es mem : List MemoryEntry), mem.length ≤ C →
      add_all C mem es = some ((mem ++ es).drop (mem.length + es.length - C)) := by
  intro es
  induction es with
  | nil =>
      intro mem hlen
      have h0 : mem.length - C = 0 := Nat.sub_eq_zero_of_le hlen
      simp [add_all, h0]
  | cons e es ih =>
      intro mem hlen
      by_cases hfull : C ≤ mem.length
      · have hlen' : mem.length = C := le_antisymm hlen hfull
        cases mem with
        | nil =>
            simp only [List.length_nil] at hlen'
            omega
        | cons m0 mtl =>
            have hadd : add_memory C (m0 :: mtl) e = some (mtl ++ [e]) := by
              unfold add_memory
              rw [if_pos hfull]
            rw [add_all_cons, hadd]
            show add_all C (mtl ++ [e]) es = _
            have hlen2 : (mtl ++ [e]).length ≤ C := by
              simp only [List.length_append, List.length_singleton]
              simp only [List.length_cons] at hlen'
              omega
            rw [ih (mtl ++ [e]) hlen2]
            congr 1
            have harith : (mtl ++ [e]).length + es.length - C = es.length := by
              simp only [List.length_append, List.length_singleton]
              simp only [List.length_cons] at hlen'
              omega
            have harith2 : (m0 :: mtl).length + (e :: es).length - C =
                es.length + 1 := by
              simp only [List.length_cons] at hlen' ⊢
              omega
            rw [harith, harith2, List.append_assoc, List.singleton_append]
            rfl
      · have hadd : add_memory C mem e = some (mem ++ [e]) := by
          unfold add_memory
          rw [if_neg hfull]
        rw [add_all_cons, hadd]
        show add_all C (mem ++ [e]) es = _
        have hlen2 : (mem ++ [e]).length ≤ C := by
          simp only [List.length_append, List.length_singleton]
          omega
        rw [ih (mem ++ [e]) hlen2]
        congr 1
        have harith : (mem ++ [e]).length + es.length - C =
            mem.length + (e :: es).length - C := by
          simp only [List.length_append, List.length_cons, List.length_nil]
          omega
        rw [harith, List.append_assoc, List.singleton_append]

theorem get_memory_mem {l : List MemoryEntry}
    (hnd : (l.map MemoryEntry.id).Nodup) {e : MemoryEntry} (he : e ∈ l) :
    get_memory l e.id = some e := by
  induction l with
  | nil => cases he
  | cons a l ih =>
      simp only [List.map_cons, List.nodup_cons] at hnd
      rcases List.mem_cons.1 he with rfl | he'
      · simp [get_memory, List.find?]
      · cases hb : (a.id == e.id) with
        | false =>
            have hstep : get_memory (a :: l) e.id = get_memory l e.id := by
              simp [get_memory, List.find?, hb]
            rw [hstep]
            exact ih hnd.2 he'
        | true =>
            exfalso
            have haid : a.id = e.id := by simpa using hb
            refine hnd.1 ?_
            rw [haid]
            exact List.mem_map_of_mem MemoryEntry.id he'

/-- Claim C3: starting empty with capacity C at least 1, a sequence of adds
keeps exactly the most recent min(n, C) entries in insertion order; with
distinct generated ids, each retained entry is retrievable by get and each
evicted one is gone. -/
theorem memory_store_fifo (C : Nat) (es : List MemoryEntry) (hC : 1 ≤ C)
    (hids : (es.map MemoryEntry.id).Nodup) :
    add_all C [] es = some (es.drop (es.length - C)) ∧
    (es.drop (es.length - C)).length = min es.length C ∧
    (∀ e ∈ es.drop (es.length - C),
      get_memory (es.drop (es.length - C)) e.id = some e) ∧
    (∀ e ∈ es.take (es.length - C),
      get_memory (es.drop (es.length - C)) e.id = none) := by
  have hsplit : es.take (es.length - C) ++ es.drop (es.length - C) = es :=
    List.take_append_drop _ es
  have hnd2 : ((es.take (es.length - C)).map MemoryEntry.id).Nodup ∧
      ((es.drop (es.length - C)).map MemoryEntry.id).Nodup ∧
      ((es.take (es.length - C)).map MemoryEntry.id).Disjoint
        ((es.drop (es.length - C)).map MemoryEntry.id) := by
    have : (es.map MemoryEntry.id) =
        (es.take (es.length - C)).map MemoryEntry.id ++
          (es.drop (es.length - C)).map MemoryEntry.id := by
      rw [← List.map_append, hsplit]
    rw [this] at hids
    exact List.nodup_append.1 hids
  refine ⟨?_, ?_, ?_, ?_⟩
  · have := add_all_eq_drop C hC es [] (by simp)
    simpa using this
  · rw [List.length_drop]
    omega
  · intro e he
    exact get_memory_mem hnd2.2.1 he
  · intro e he
    unfold get_memory
    rw [List.find?_eq_none]
    intro x hx
    simp only [beq_iff_eq]
    intro hxe
    exact hnd2.2.2 (List.mem_map_of_mem MemoryEntry.id he)
      (hxe ▸ List.mem_map_of_mem MemoryEntry.id hx)

/-- The three entries of the FIFO witness run. -/
def c3Entries : List MemoryEntry :=
  [⟨1, 0, Json.null, []⟩, ⟨2, 0, Json.null, []⟩, ⟨3, 0, Json.null, []⟩]

/-- Witness for the FIFO theorem at capacity 2 and three inserted entries. -/
theorem memory_store_fifo_witness :
    (1 ≤ 2 ∧ (c3Entries.map MemoryEntry.id).Nodup) ∧
    (add_all 2 [] c3Entries = some (c3Entries.drop (c3Entries.length - 2)) ∧
      (c3Entries.drop (c3Entries.length - 2)).length = min c3Entries.length 2 ∧
      (∀ e ∈ c3Entries.drop (c3Entries.length - 2),
        get_memory (c3Entries.drop (c3Entries.length - 2)) e.id = some e) ∧
      (∀ e ∈ c3Entries.take (c3Entries.length - 2),
        get_memory (c3Entries.drop (c3Entries.length - 2)) e.id = none)) :=
  ⟨⟨by decide, by decide⟩, memory_store_fifo 2 c3Entries (by decide) (by decide)⟩

/-- Claim C10: with capacity at least 1, add_memory never removes from an
empty sequence, so the panic branch is unreachable; with capacity 0 the very
first add removes from an empty sequence and panics. -/
theorem add_memory_no_panic (capacity : Nat) (memory : List MemoryEntry)
    (entry : MemoryEntry) (hcap : 1 ≤ capacity) :
    (add_memory capacity memory entry).isSome = true ∧
    (∀ e : MemoryEntry, add_memory 0 [] e = none) := by
  refine ⟨?_, fun e => rfl⟩
  by_cases h : capacity ≤ memory.length
  · cases memory with
    | nil =>
        simp only [List.length_nil] at h
        omega
    | cons a l =>
        unfold add_memory
        rw [if_pos h]
        rfl
  · unfold add_memory
    rw [if_neg h]
    rfl

/-- Witness for the no-panic theorem at capacity 1 on the empty store. -/
theorem add_memory_no_panic_witness :
    1 ≤ 1 ∧
    ((add_memory 1 [] ⟨0, 0, Json.null, []⟩).isSome = true ∧
      (∀ e : MemoryEntry, add_memory 0 [] e = none)) :=
  ⟨Nat.le_refl 1, add_memory_no_panic 1 [] ⟨0, 0, Json.null, []⟩ (Nat.le_refl 1)⟩

/-- A middleware that only observes: it logs its before events, calls next
exactly once, then logs its after events, passing the inner result through.
This is the shape of middleware the ordering property quantifies over. -/
def logMW (before after : List String) : ToolMiddleware :=
  ⟨fun ctx next =>
    let r := next ctx
    (before ++ r.1 ++ after, r.2)⟩

/-- Claim C4: with middleware [A, B] registered in that order around a
registered tool, the observable event order of a pipeline execute call is
the before events of A, then those of B, then the tool execution events,
then the after events of B, then those of A: middleware zero is outermost
and the tool call is the innermost frame. -/
theorem middleware_order (m : ToolManager) (name : String) (params : Metadata)
    (tool : MCPTool) (cfg : ToolConfig) (a₁ a₂ b₁ b₂ : List String)
    (hc : m.get_config name = some cfg) (ht : m.get name = some tool) :
    (ToolPipeline.execute ⟨m, [logMW a₁ a₂, logMW b₁ b₂]⟩ name params).1 =
      a₁ ++ (b₁ ++ (tool.execute params).1 ++ b₂) ++ a₂ := by
  simp [ToolPipeline.execute, ToolManager.create_context, hc, ht,
    ToolContext.validate, createNext, logMW]

/-- Claim C5: a pipeline execute call on an unregistered tool name returns
the ToolNotFound error of the registry with an empty event log, whatever
middleware is installed: no middleware body runs before tool resolution has
succeeded. -/
theorem pipeline_unregistered (m : ToolManager) (mws : List ToolMiddleware)
    (name : String) (params : Metadata) (h : m.get name = none) :
    ToolPipeline.execute ⟨m, mws⟩ name params =
      ([], .error (.agent (.toolNotFound name))) := by
  unfold ToolPipeline.execute
  cases hcfg : m.get_config name with
  | none =>
      simp [ToolManager.create_context, hcfg]
  | some cfg =>
      simp [ToolManager.create_context, hcfg, ToolContext.validate, h]

/-- The tool of the middleware ordering witness; its body logs one event. -/
def c4Tool : MCPTool := ⟨"w", "demo tool", fun _ => (["T"], .ok ([] : Metadata))⟩

/-- A manager with c4Tool registered under the name w. -/
def c4Manager : ToolManager := ToolManager.new.register "w" c4Tool

/-- Witness for the middleware ordering theorem on a concrete pipeline. -/
theorem middleware_order_witness :
    (c4Manager.get_config "w" = some ⟨"w", "demo tool", [], none⟩ ∧
      c4Manager.get "w" = some c4Tool) ∧
    (ToolPipeline.execute
        ⟨c4Manager, [logMW ["A1"] ["A2"], logMW ["B1"] ["B2"]]⟩ "w"
        ([] : Metadata)).1 =
      ["A1"] ++ (["B1"] ++ (c4Tool.execute ([] : Metadata)).1 ++ ["B2"]) ++
        ["A2"] :=
  ⟨⟨rfl, rfl⟩,
    middleware_order c4Manager "w" ([] : Metadata) c4Tool
      ⟨"w", "demo tool", [], none⟩ ["A1"] ["A2"] ["B1"] ["B2"] rfl rfl⟩

/-- Witness for the unregistered-name theorem on the empty registry with one
installed middleware. -/
theorem pipeline_unregistered_witness :
    ToolManager.new.get "x" = none ∧
    ToolPipeline.execute ⟨ToolManager.new, [logMW ["a"] ["b"]]⟩ "x"
        ([] : Metadata) =
      ([], .error (.agent (.toolNotFound "x"))) :=
  ⟨rfl,
    pipeline_unregistered ToolManager.new [logMW ["a"] ["b"]] "x"
      ([] : Metadata) rfl⟩

/-- The invariant every registry reachable through register calls keeps: the
keys of the configs map are distinct and each stored descriptor carries its
own key as its name. -/
def registerInvariant (tm : ToolManager) : Prop :=
  (tm.configs.map Prod.fst).Nodup ∧
  ∀ kc ∈ tm.configs, (kc.2 : ToolConfig).name = kc.1

theorem registerInvariant_new : registerInvariant ToolManager.new :=
  ⟨List.nodup_nil, fun _ h => absurd h (List.not_mem_nil _)⟩

theorem mem_mapInsert_elim {κ α : Type} [DecidableEq κ] {kc : κ × α} {k : κ}
    {v : α} {l : List (κ × α)} (h : kc ∈ mapInsert k v l) :
    kc = (k, v) ∨ kc ∈ l := by
  induction l with
  | nil => simpa [mapInsert] using h
  | cons hd tl ih =>
      obtain ⟨k₀, v₀⟩ := hd
      by_cases hk : k₀ = k
      · rw [mapInsert, if_pos hk] at h
        rcases List.mem_cons.1 h with h | h
        · exact Or.inl h
        · exact Or.inr (List.mem_cons_of_mem _ h)
      · rw [mapInsert, if_neg hk] at h
        rcases List.mem_cons.1 h with h | h
        · exact Or.inr (h ▸ List.mem_cons_self _ _)
        · rcases ih h with h | h
          · exact Or.inl h
          · exact Or.inr (List.mem_cons_of_mem _ h)

theorem registerInvariant_register (tm : ToolManager) (name : String)
    (tool : MCPTool) (h : registerInvariant tm) :
    registerInvariant (tm.register name tool) := by
  refine ⟨nodup_keys_mapInsert h.1, ?_⟩
  intro kc hkc
  rcases mem_mapInsert_elim hkc with rfl | hkc
  · rfl
  · exact h.2 kc hkc

theorem countP_values_mapInsert (name : String) (c : ToolConfig)
    (hc : c.name = name) :
    ∀ l : List (String × ToolConfig), (l.map Prod.fst).Nodup →
      (∀ kc ∈ l, (kc.2 : ToolConfig).name = kc.1) →
      ((mapInsert name c l).map Prod.snd).countP
        (fun d => d.name == name) = 1 := by
  intro l
  induction l with
  | nil =>
      intro _ _
      simp [mapInsert, List.countP_cons, hc]
  | cons hd tl ih =>
      intro hnd hwf
      obtain ⟨k₀, v₀⟩ := hd
      simp only [List.map_cons, List.nodup_cons] at hnd
      by_cases hk : k₀ = name
      · rw [mapInsert, if_pos hk, List.map_cons, List.countP_cons]
        have hzero : (tl.map Prod.snd).countP (fun d => d.name == name) = 0 := by
          rw [List.countP_eq_zero]
          intro d hd
          rcases List.mem_map.1 hd with ⟨kc, hkc, rfl⟩
          have hname := hwf kc (List.mem_cons_of_mem _ hkc)
          simp only [beq_iff_eq, hname]
          intro heq
          refine hnd.1 ?_
          rw [hk, ← heq]
          exact List.mem_map_of_mem Prod.fst hkc
        simp [hzero, hc]
      · rw [mapInsert, if_neg hk, List.map_cons, List.countP_cons]
        have hv₀ : v₀.name = k₀ := hwf (k₀, v₀) (List.mem_cons_self _ _)
        have hnot : ¬(v₀.name == name) = true := by
          simp only [beq_iff_eq, hv₀]
          exact hk
        rw [ih hnd.2 (fun kc hkc => hwf kc (List.mem_cons_of_mem _ hkc))]
        simp [hnot]

/-- Claim C6: register stores the tool under the name with the derived
default descriptor; a second registration under the same name overwrites
both the stored tool and the descriptor, and list_tools afterwards contains
exactly one entry named by that name. -/
theorem register_last_write_wins (tm : ToolManager) (name : String)
    (t₁ t₂ : MCPTool) (hinv : registerInvariant tm) :
    ((tm.register name t₁).get name = some t₁ ∧
      (tm.register name t₁).get_config name =
        some ⟨name, t₁.description, [], none⟩) ∧
    ((tm.register name t₁).register name t₂).get name = some t₂ ∧
    ((tm.register name t₁).register name t₂).get_config name =
      some ⟨name, t₂.description, [], none⟩ ∧
    (((tm.register name t₁).register name t₂).list_tools).countP
      (fun d => d.name == name) = 1 := by
  refine ⟨⟨?_, ?_⟩, ?_, ?_, ?_⟩
  · simp [ToolManager.register, ToolManager.get, mapLookup_mapInsert_self]
  · simp [ToolManager.register, ToolManager.get_config, mapLookup_mapInsert_self]
  · simp [ToolManager.register, ToolManager.get, mapLookup_mapInsert_self]
  · simp [ToolManager.register, ToolManager.get_config, mapLookup_mapInsert_self]
  · have h1 := registerInvariant_register tm name t₁ hinv
    exact countP_values_mapInsert name _ rfl _ h1.1 h1.2

/-- The first tool registered by the overwrite witness. -/
def c6Tool1 : MCPTool := ⟨"t", "first", fun _ => ([], .ok ([] : Metadata))⟩

/-- The second tool registered by the overwrite witness under the same name. -/
def c6Tool2 : MCPTool := ⟨"t", "second", fun _ => ([], .ok ([] : Metadata))⟩

/-- Witness for the last-write-wins theorem on the empty registry. -/
theorem register_last_write_wins_witness :
    registerInvariant ToolManager.new ∧
    (((ToolManager.new.register "t" c6Tool1).get "t" = some c6Tool1 ∧
      (ToolManager.new.register "t" c6Tool1).get_config "t" =
        some ⟨"t", c6Tool1.description, [], none⟩) ∧
    ((ToolManager.new.register "t" c6Tool1).register "t" c6Tool2).get "t" =
      some c6Tool2 ∧
    ((ToolManager.new.register "t" c6Tool1).register "t" c6Tool2).get_config
        "t" = some ⟨"t", c6Tool2.description, [], none⟩ ∧
    ((((ToolManager.new.register "t" c6Tool1).register "t"
        c6Tool2).list_tools).countP (fun d => d.name == "t")) = 1) :=
  ⟨registerInvariant_new,
    register_last_write_wins ToolManager.new "t" c6Tool1 c6Tool2
      registerInvariant_new⟩

theorem foldl_mapInsert_lookup (data : Metadata) :
    ∀ (mem : List (String × Json)) (k : String),
      (data.map Prod.fst).Nodup →
      mapLookup k (data.foldl (fun m kv => mapInsert kv.1 kv.2 m) mem) =
        match mapLookup k data with
        | some v => some v
        | none => mapLookup k mem := by
  induction data with
  | nil => intro mem k _; rfl
  | cons kv data ih =>
      intro mem k hnd
      obtain ⟨k₀, v₀⟩ := kv
      simp only [List.map_cons, List.nodup_cons] at hnd
      show mapLookup k (data.foldl _ (mapInsert k₀ v₀ mem)) = _
      rw [ih (mapInsert k₀ v₀ mem) k hnd.2]
      by_cases hk : k₀ = k
      · have hnone : mapLookup k data = none := by
          apply mapLookup_eq_none_of_not_mem
          rw [← hk]
          exact hnd.1
        rw [hnone]
        show mapLookup k (mapInsert k₀ v₀ mem) =
          match mapLookup k ((k₀, v₀) :: data) with
          | some v => some v
          | none => mapLookup k mem
        rw [hk, mapLookup, if_pos rfl, mapLookup_mapInsert_self]
      · have hstep : mapLookup k ((k₀, v₀) :: data) = mapLookup k data := by
          rw [mapLookup, if_neg hk]
        rw [hstep, mapLookup_mapInsert_ne (fun h => hk h.symm)]

/-- Claim C7: State::update returns success and merges every key of the data
map into the memory map, overwriting present keys and leaving absent ones
unchanged; tasks are untouched, and snapshot returns exactly a copy of the
memory map, independent of the task map. -/
theorem update_state_merge (st : State) (data : Metadata)
    (hnd : (data.map Prod.fst).Nodup) :
    (st.update data).2 = .ok () ∧
    (∀ k v, mapLookup k data = some v →
      mapLookup k (st.update data).1.memory = some v) ∧
    (∀ k, mapLookup k data = none →
      mapLookup k (st.update data).1.memory = mapLookup k st.memory) ∧
    (st.update data).1.tasks = st.tasks ∧
    State.snapshot (st.update data).1 = .ok (st.update data).1.memory ∧
    (∀ (mem : List (String × Json)) (t₁ t₂ : List (Nat × TaskState)),
      State.snapshot ⟨mem, t₁⟩ = State.snapshot ⟨mem, t₂⟩) := by
  refine ⟨rfl, ?_, ?_, rfl, rfl, fun _ _ _ => rfl⟩
  · intro k v hkv
    have h := foldl_mapInsert_lookup data st.memory k hnd
    rw [hkv] at h
    exact h
  · intro k hk
    have h := foldl_mapInsert_lookup data st.memory k hnd
    rw [hk] at h
    exact h

/-- Memory map of the merge witness before the update. -/
def c7State : State := ⟨[("b", Json.num 2)], []⟩

/-- Data map of the merge witness. -/
def c7Data : Metadata := [("a", Json.num 1)]

/-- Witness for the merge and snapshot theorem on a concrete state. -/
theorem update_state_merge_witness :
    (c7Data.map Prod.fst).Nodup ∧
    ((c7State.update c7Data).2 = .ok () ∧
    (∀ k v, mapLookup k c7Data = some v →
      mapLookup k (c7State.update c7Data).1.memory = some v) ∧
    (∀ k, mapLookup k c7Data = none →
      mapLookup k (c7State.update c7Data).1.memory =
        mapLookup k c7State.memory) ∧
    (c7State.update c7Data).1.tasks = c7State.tasks ∧
    State.snapshot (c7State.update c7Data).1 =
      .ok (c7State.update c7Data).1.memory ∧
    (∀ (mem : List (String × Json)) (t₁ t₂ : List (Nat × TaskState)),
      State.snapshot ⟨mem, t₁⟩ = State.snapshot ⟨mem, t₂⟩)) :=
  ⟨by decide, update_state_merge c7State c7Data (by decide)⟩

/-- The key synchronization invariant between the two registry maps. -/
def syncInv (tm : ToolManager) : Prop :=
  ∀ n : String,
    (mapLookup n tm.tools).isSome = true ↔ (mapLookup n tm.configs).isSome = true

theorem syncInv_new : syncInv ToolManager.new := fun _ => Iff.rfl

theorem syncInv_register (tm : ToolManager) (name : String) (tool : MCPTool)
    (h : syncInv tm) : syncInv (tm.register name tool) := by
  intro n
  by_cases hn : n = name
  · subst hn
    simp [ToolManager.register, mapLookup_mapInsert_self]
  · simp only [ToolManager.register]
    rw [mapLookup_mapInsert_ne hn, mapLookup_mapInsert_ne hn]
    exact h n

theorem syncInv_update_config (tm : ToolManager) (name : String)
    (cfg : ToolConfig) (h : syncInv tm) :
    syncInv (tm.update_config name cfg).1 := by
  unfold ToolManager.update_config
  by_cases ht : (mapLookup name tm.tools).isSome
  · rw [if_pos ht]
    intro n
    by_cases hn : n = name
    · subst hn
      simp [mapLookup_mapInsert_self, ht]
    · show (mapLookup n tm.tools).isSome = true ↔
        (mapLookup n (mapInsert name cfg tm.configs)).isSome = true
      rw [mapLookup_mapInsert_ne hn]
      exact h n
  · rw [if_neg ht]
    exact h

/-- An operation on the tool registry after construction. -/
inductive TMOp where
  | register (name : String) (tool : MCPTool)
  | updateConfig (name : String) (config : ToolConfig)

/-- Apply a registry operation, discarding the update_config result. -/
def applyTMOp (tm : ToolManager) : TMOp → ToolManager
  | .register name tool => tm.register name tool
  | .updateConfig name config => (tm.update_config name config).1

/-- The registry produced by a sequence of operations from ToolManager::new. -/
def runTM (ops : List TMOp) : ToolManager :=
  ops.foldl applyTMOp ToolManager.new

theorem syncInv_runTM (ops : List TMOp) : syncInv (runTM ops) := by
  suffices h : ∀ (l : List TMOp) (tm : ToolManager),
      syncInv tm → syncInv (l.foldl applyTMOp tm) from
    h ops ToolManager.new syncInv_new
  intro l
  induction l with
  | nil => intro tm h; exact h
  | cons op rest ih =>
      intro tm h
      cases op with
      | register n t => exact ih _ (syncInv_register tm n t h)
      | updateConfig n c => exact ih _ (syncInv_update_config tm n c h)

/-- Claim C8: over every operation sequence from a fresh registry, a name is
a key of the tools map iff it is a key of the configs map, so get,
get_config and create_context agree on whether a name is registered. -/
theorem tool_maps_key_sync (ops : List TMOp) (name : String)
    (params : Metadata) :
    (((runTM ops).get name).isSome = true ↔
      ((runTM ops).get_config name).isSome = true) ∧
    (resultOk ((runTM ops).create_context name params) = true ↔
      ((runTM ops).get_config name).isSome = true) ∧
    (resultOk ((runTM ops).create_context name params) = true ↔
      ((runTM ops).get name).isSome = true) := by
  have h := syncInv_runTM ops name
  have hcc : resultOk ((runTM ops).create_context name params) =
      ((runTM ops).get_config name).isSome := by
    unfold ToolManager.create_context
    cases hc : (runTM ops).get_config name with
    | none => rfl
    | some cfg => rfl
  refine ⟨h, ?_, ?_⟩
  · rw [hcc]
  · rw [hcc]
    exact h.symm

/-- Claim C9: when the params map binds the key tool to a value that is not
a JSON string, execute_with_tools fails with the InvalidRequest error used
for an absent key, not with ToolNotFound, and the task record of the
enclosing execute_task call ends Failed carrying that message. -/
theorem nonstring_tool_name (ag : Agent) (st : State) (tid : Nat)
    (params : Metadata) (v : Json)
    (hv : mapLookup "tool" params = some v) (hs : v.asString = none) :
    ag.execute_with_tools params =
      .error (.agent (.invalidRequest "Tool name is required")) ∧
    (∀ q : Metadata, mapLookup "tool" q = none →
      ag.execute_with_tools q =
        .error (.agent (.invalidRequest "Tool name is required"))) ∧
    (ag.execute_task st tid params).2 =
      .error (.agent (.invalidRequest "Tool name is required")) ∧
    get_task (ag.execute_task st tid params).1 tid =
      some ⟨tid, .failed, none,
        some "Invalid request: Tool name is required"⟩ := by
  have hget : Metadata.getString params "tool" = none := by
    rw [Metadata.getString, hv]
    exact hs
  have hmain : ag.execute_with_tools params =
      .error (.agent (.invalidRequest "Tool name is required")) := by
    unfold Agent.execute_with_tools
    rw [hget]
  refine ⟨hmain, ?_, ?_, ?_⟩
  · intro q hq
    unfold Agent.execute_with_tools
    rw [show Metadata.getString q "tool" = none by
      rw [Metadata.getString, hq]; rfl]
  · simp [Agent.execute_task, hmain]
  · simp [Agent.execute_task, hmain, get_task, mapLookup_mapInsert_self,
      AnyErr.toStr, Err.toStr]

/-- An agent that even has a tool registered under the name 3, to show the
failure is InvalidRequest rather than ToolNotFound. -/
def c9Agent : Agent :=
  ⟨⟨"agent9", none, [], []⟩,
    ToolManager.new.register "3"
      ⟨"3", "numeric name tool", fun _ => ([], .ok ([] : Metadata))⟩⟩

/-- Params binding the tool key to the JSON number 3. -/
def c9Params : Metadata := [("tool", Json.num 3)]

/-- Witness for the non-string tool name theorem on a concrete call. -/
theorem nonstring_tool_name_witness :
    (mapLookup "tool" c9Params = some (Json.num 3) ∧
      (Json.num 3).asString = none) ∧
    (c9Agent.execute_with_tools c9Params =
      .error (.agent (.invalidRequest "Tool name is required")) ∧
    (∀ q : Metadata, mapLookup "tool" q = none →
      c9Agent.execute_with_tools q =
        .error (.agent (.invalidRequest "Tool name is required"))) ∧
    (c9Agent.execute_task State.empty 7 c9Params).2 =
      .error (.agent (.invalidRequest "Tool name is required")) ∧
    get_task (c9Agent.execute_task State.empty 7 c9Params).1 7 =
      some ⟨7, .failed, none,
        some "Invalid request: Tool name is required"⟩) :=
  ⟨⟨rfl, rfl⟩,
    nonstring_tool_name c9Agent State.empty 7 c9Params (Json.num 3) rfl rfl⟩

end Atlas
